import Mathlib

/-!
Verification of the per-password classification pipeline of `passat.py`.

Passwords and input lines are modelled as `List Char`.  Python `Counter`
objects are modelled as lists of the keys that were incremented, one list
element per `+= 1` in the source: the count of a key is its number of
occurrences in the list, and the sum of all counts is the list's length.
External libraries (`fuzzywuzzy`'s `process.extract`, the `re` engine used
for the taxonomy table, and Python's Unicode predicates `str.isnumeric` /
`str.isalpha`) are oracle parameters of the pipeline; everything else is
translated directly from the source.
-/

namespace Passat

/-- The value of the module constant `SYMBOLS` (passat.py line 14) after
Python string-escape processing: `\-`, `\]` keep their backslash (unknown
escapes), `\\` is one backslash, `\"` is a double quote.  35 characters,
with the backslash occurring three times. -/
def SYMBOLS : List Char :=
  ['~', Char.ofNat 96, '!', '@', '#', '$', '%', '^', '&', '*', '(', ')',
   '_', '\\', '-', '+', '=', Char.ofNat 125, '\\', ']', Char.ofNat 123,
   '[', '|', '\\', Char.ofNat 34, Char.ofNat 39, ':', ';', '?', '/', '>',
   '.', '<', ',', ' ']

/-- Interpretation of a regex character-class body: a backslash escapes the
following character (inside a class, `\-`, `\]`, `\\`, `\"` denote the
literal `-`, `]`, `\`, `"`).  Applied to `SYMBOLS` this yields the set of
characters matched by the `[{SYMBOLS}]` classes of `stats_regex`
(passat.py lines 16-49). -/
def regexClassChars : List Char → List Char
  | [] => []
  | ['\\'] => ['\\']
  | '\\' :: d :: rest => d :: regexClassChars rest
  | c :: rest => c :: regexClassChars rest

/-- The character set matched by the symbol class `[{SYMBOLS}]` used in the
taxonomy rule patterns. -/
def regexSymbolChars : List Char := regexClassChars SYMBOLS

def lowercaseChars : List Char := "abcdefghijklmnopqrstuvwxyz".toList

def uppercaseChars : List Char := "ABCDEFGHIJKLMNOPQRSTUVWXYZ".toList

def digitChars : List Char := "0123456789".toList

/-- `tr_from` of passat.py line 62: lowercase, uppercase, digits, then the
raw characters of `SYMBOLS`. -/
def tr_from : List Char := lowercaseChars ++ uppercaseChars ++ digitChars ++ SYMBOLS

/-- Python `str.ljust`: pad on the right with `fill` up to length `n`. -/
def ljust (l : List Char) (n : Nat) (fill : Char) : List Char :=
  l ++ List.replicate (n - l.length) fill

/-- `tr_to` of passat.py line 63: 26 copies of `a`, 26 of `A`, 10 of `1`,
left-justified with `@` to the length of `tr_from`. -/
def tr_to : List Char :=
  ljust (List.replicate 26 'a' ++ List.replicate 26 'A' ++ List.replicate 10 '1')
    tr_from.length '@'

/-- The `(from, to)` pairs handed to `str.maketrans` (passat.py line 64). -/
def transPairs : List (Char × Char) := tr_from.zip tr_to

/-- First-match lookup in an association list of characters. -/
def trLookup (c : Char) : List (Char × Char) → Option Char
  | [] => none
  | q :: rest => if q.1 = c then some q.2 else trLookup c rest

/-- The translation function denoted by `trans = str.maketrans(tr_from, tr_to)`:
Python builds a dict pair by pair, so a later pair overrides an earlier one
with the same key — hence the first match in the reversed pair list; a
character absent from the table is left unchanged by `str.translate`. -/
def trFun (c : Char) : Char := (trLookup c transPairs.reverse).getD c

/-- `p.translate(trans)` (passat.py line 206): the Pattern Masker. -/
def translate (p : List Char) : List Char := p.map trFun

/-- One step of the lazy scan of `(?:.*?:)?`: the shortest prefix ending in
a colon, when the line contains a colon at all; `none` otherwise. -/
def afterFirstColon : List Char → Option (List Char)
  | [] => none
  | c :: rest => if c = ':' then some rest else afterFirstColon rest

/-- The effect of one optional lazy group `(?:.*?:)?` of `line_re`
(passat.py line 68): drop everything up to and including the first colon
when present, otherwise leave the line unchanged (the group matches empty). -/
def dropColon (l : List Char) : List Char := (afterFirstColon l).getD l

/-- `line_re.match(l).group(1)` (passat.py lines 68 and 167): the regex
`(?:.*?:)?(?:.*?:)?(.*)$` anchored at the start.  Each optional group is
greedy as a group and lazy inside, and `(.*)$` always succeeds, so the
first (returned) match consumes the two shortest colon-terminated prefixes
that exist and captures the rest. -/
def normalize (l : List Char) : List Char := dropColon (dropColon l)

/-- Value of one hexadecimal digit, case-insensitive; `none` for non-hex
characters, as in `binascii.unhexlify`. -/
def hexVal (c : Char) : Option Nat :=
  if '0' ≤ c ∧ c ≤ '9' then some (c.toNat - 48)
  else if 'a' ≤ c ∧ c ≤ 'f' then some (c.toNat - 87)
  else if 'A' ≤ c ∧ c ≤ 'F' then some (c.toNat - 55)
  else none

/-- `binascii.unhexlify` followed by `.decode("latin1")` (passat.py
line 178): hex digits are decoded pairwise into single-byte characters;
an odd-length or non-hex input raises `binascii.Error`, modelled as `none`. -/
def unhexlify : List Char → Option (List Char)
  | [] => some []
  | [_] => none
  | c1 :: c2 :: rest =>
    match hexVal c1, hexVal c2, unhexlify rest with
    | some hi, some lo, some r => some (Char.ofNat (16 * hi + lo) :: r)
    | _, _, _ => none

/-- The five characters of the literal wrapper head in
`p.startswith("$HEX[")` (passat.py line 177). -/
def hexHead : List Char := ['$', 'H', 'E', 'X', '[']

/-- The Encoding Recoverer (passat.py lines 177-178): when
`p.startswith("$HEX[") and p[-1] == "]"`, replace `p` by
`binascii.unhexlify(p[5:-1]).decode("latin1")`; a decode failure is a hard
error (`none`), every other candidate passes through unchanged.
`startswith` is the equality of the 5-character head, `p[5:-1]` is
`(p.drop 5).dropLast`. -/
def recoverHex (p : List Char) : Option (List Char) :=
  if p.take 5 = hexHead ∧ p.getLast? = some ']' then
    unhexlify ((p.drop 5).dropLast)
  else some p

/-- A `$HEX[...]` candidate with the given bracketed payload. -/
def hexCandidate (payload : List Char) : List Char := hexHead ++ payload ++ [']']

/-- Python `set.add` on a set modelled as a duplicate-free list in insertion
order: add `x` only when absent. -/
def insertNew (x : String) (l : List String) : List String :=
  if x ∈ l then l else l ++ [x]

/-- Python `set.update(xs)`: add every element of `xs` not already present. -/
def updateSet (acc : List String) (xs : List String) : List String :=
  xs.foldl (fun a x => insertNew x a) acc

/-- The `cnt_root[m[0]] += 1` increments of passat.py lines 223-227: one
per fuzzy match whose score is strictly greater than 80, in match order. -/
def fuzzyRoots (mall : List (String × Nat)) : List String :=
  mall.filterMap (fun m => if 80 < m.2 then some m.1 else none)

/-- The `pw_categories` set built by the loop of passat.py lines 222-228:
starting from the empty set, for each match with score strictly greater
than 80 add `word2category[m[0]]`. -/
def fuzzyCategories (w2c : String → List String) (mall : List (String × Nat)) :
    List String :=
  mall.foldl (fun acc m => if 80 < m.2 then updateSet acc (w2c m.1) else acc) []

/-- passat.py lines 230-231: an empty category set is replaced by the
`no_category` sentinel. -/
def pwCategoriesOf (w2c : String → List String) (mall : List (String × Nat)) :
    List String :=
  let pc := fuzzyCategories w2c mall
  if pc = [] then ["no_category"] else pc

/-- Run parameters and external collaborators of `main()`: the flags, the
dictionary word set and inverted index, the fuzzy scorer
(`process.extract`), Python's Unicode character predicates, and the regex
engine restricted to the taxonomy table (`taxMatch p` lists the names of
the `stats` rules whose pattern finds a match in `p`, in table order). -/
structure Params where
  freq : Bool
  no_categories : Bool
  words : List String
  word2category : String → List String
  extract : List Char → List (String × Nat)
  isnumeric : Char → Bool
  isalpha : Char → Bool
  taxMatch : List Char → List String

/-- The counters of `main()` (passat.py lines 132-141), each as the list of
its increments, plus the four keys of `cnt_totals` and the running
`valid_passwords` count. -/
structure St where
  cnt : List String
  cnt_length : List Nat
  cnt_pwd : List (List Char)
  cnt_root : List String
  cnt_regex : List String
  cnt_pattern : List (List Char)
  cnt_symbol : List Char
  cnt_alpha : List Char
  cnt_num : List Char
  totals_chars : Nat
  totals_num : Nat
  totals_alpha : Nat
  totals_symbol : Nat
  valid : Nat
deriving DecidableEq

/-- All counters empty, all totals zero. -/
def St.init : St := ⟨[], [], [], [], [], [], [], [], [], 0, 0, 0, 0, 0⟩

/-- The per-character branch of the letter-frequency analysis (passat.py
lines 191-200): `isnumeric`, `elif isalpha`, `else` symbol. -/
def freqStep (pr : Params) (st : St) (c : Char) : St :=
  if pr.isnumeric c then
    { st with cnt_num := st.cnt_num ++ [c], totals_num := st.totals_num + 1 }
  else if pr.isalpha c then
    { st with cnt_alpha := st.cnt_alpha ++ [c], totals_alpha := st.totals_alpha + 1 }
  else
    { st with cnt_symbol := st.cnt_symbol ++ [c], totals_symbol := st.totals_symbol + 1 }

/-- The `for letter in p` loop of passat.py lines 191-200. -/
def freqScan (pr : Params) (st : St) (p : List Char) : St :=
  p.foldl (freqStep pr) st

/-- The guard of the fuzzy-categorization block (passat.py line 217):
`len(p) > 3 and not args.no_categories and words`. -/
def fuzzyEnabled (pr : Params) (p : List Char) : Bool :=
  decide (3 < p.length) && !pr.no_categories && !pr.words.isEmpty

/-- Classification of one decoded password `p` (passat.py lines 180-235):
length, value, optional letter frequency, shape pattern, taxonomy matches,
and — when the fuzzy guard holds — base-word and category increments.  The
source performs these updates sequentially on disjoint counters; they are
gathered into one record update. -/
def classify (pr : Params) (st : St) (p : List Char) : St :=
  let stf :=
    if pr.freq then freqScan pr { st with totals_chars := st.totals_chars + p.length } p
    else st
  { stf with
      cnt_length := stf.cnt_length ++ [p.length],
      cnt_pwd := stf.cnt_pwd ++ [p],
      cnt_pattern := stf.cnt_pattern ++ [translate p],
      cnt_regex := stf.cnt_regex ++ pr.taxMatch p,
      cnt_root := stf.cnt_root ++
        (if fuzzyEnabled pr p then fuzzyRoots (pr.extract p) else []),
      cnt := stf.cnt ++
        (if fuzzyEnabled pr p then pwCategoriesOf pr.word2category (pr.extract p) else []) }

/-- Processing of one raw line (passat.py lines 159-243): extract the
password, skip it when empty (state unchanged), otherwise count it valid,
run the Encoding Recoverer — whose failure aborts the run (`none`, the
uncaught `binascii.Error`) — and classify the decoded password. -/
def processLine (pr : Params) (st : St) (l : List Char) : Option St :=
  let p := normalize l
  if p.isEmpty then some st
  else
    match recoverHex p with
    | none => none
    | some q => some (classify pr { st with valid := st.valid + 1 } q)

/-- The main loop over the lines of one or more sources. -/
def processLines (pr : Params) (st : St) : List (List Char) → Option St
  | [] => some st
  | l :: ls =>
    match processLine pr st l with
    | none => none
    | some st1 => processLines pr st1 ls

/-- One input source: `total = len(lines)` (the lines-read count, taken
before the loop, passat.py line 155) paired with the loop's final state. -/
def runFile (pr : Params) (st : St) (lines : List (List Char)) : Option (Nat × St) :=
  (processLines pr st lines).map (fun st1 => (lines.length, st1))

/-- The decoded passwords that reach classification in a run, in order:
per line, the normalized password when non-empty, sent through the
Encoding Recoverer; a decode failure fails the whole run. -/
def decodedPasswords : List (List Char) → Option (List (List Char))
  | [] => some []
  | l :: ls =>
    let p := normalize l
    if p.isEmpty then decodedPasswords ls
    else
      match recoverHex p with
      | none => none
      | some q => (decodedPasswords ls).map (fun ps => q :: ps)

/-- The number of increments a decoded password contributes to the category
counter `cnt`: the size of its category label set when the fuzzy guard
holds, zero otherwise. -/
def catContribution (pr : Params) (p : List Char) : Nat :=
  if fuzzyEnabled pr p then (pwCategoriesOf pr.word2category (pr.extract p)).length
  else 0

/-- The invariant relating the four keys of `cnt_totals`. -/
def totalsOk (st : St) : Prop :=
  st.totals_chars = st.totals_num + st.totals_alpha + st.totals_symbol

/-! Concrete run configurations used to instantiate the theorems below. -/

/-- A run with fuzzy categorization enabled and a one-word dictionary whose
fuzzy scorer returns no matches. -/
def exParams : Params :=
  ⟨false, false, ["test"], fun _ => [], fun _ => [], fun _ => false, fun _ => false,
   fun _ => []⟩

/-- The final state of processing the single line `abc` under `exParams`. -/
def exShortRun : St := (processLines exParams St.init [['a', 'b', 'c']]).getD St.init

/-- A run with `--no-categories` and letter frequency off. -/
def ncParams : Params :=
  ⟨false, true, [], fun _ => [], fun _ => [], fun _ => false, fun _ => false,
   fun _ => []⟩

/-- The raw line `$HEX[]`. -/
def hexEmptyLine : List Char := ['$', 'H', 'E', 'X', '[', ']']

/-- The final state of processing the single line `$HEX[]` under `ncParams`. -/
def hexEmptyRun : St := (processLines ncParams St.init [hexEmptyLine]).getD St.init

/-- A run whose fuzzy scorer reports the dictionary word `pass` with
score 90 and whose inverted index sends every word to `cat1`. -/
def wParams : Params :=
  ⟨false, false, ["pass"], fun _ => ["cat1"], fun _ => [("pass", 90)],
   fun _ => false, fun _ => false, fun _ => []⟩

/-- The raw line `passw`. -/
def wLine : List Char := ['p', 'a', 's', 's', 'w']

/-- The final state of processing the single line `passw` under `wParams`. -/
def wRun : St := (processLines wParams St.init [wLine]).getD St.init

/-- The decoded passwords of that run. -/
def wPs : List (List Char) := (decodedPasswords [wLine]).getD []

/-- A run with letter-frequency mode on and ASCII character predicates. -/
def fqParams : Params :=
  ⟨true, true, [], fun _ => [], fun _ => [], Char.isDigit, Char.isAlpha,
   fun _ => []⟩

/-- The final state of processing the single line `a1%` under `fqParams`. -/
def fqRun : St := (processLines fqParams St.init [['a', '1', '%']]).getD St.init

/-! Helper lemmas about the character tables. -/

theorem trLookup_mem {c v : Char} : ∀ {l : List (Char × Char)},
    trLookup c l = some v → (c, v) ∈ l
  | [], h => by simp [trLookup] at h
  | q :: rest, h => by
    by_cases hq : q.1 = c
    · rw [trLookup, if_pos hq] at h
      cases h
      exact List.mem_cons.mpr (Or.inl (by rw [← hq]))
    · rw [trLookup, if_neg hq] at h
      exact List.mem_cons_of_mem _ (trLookup_mem h)

theorem trLookup_exists {c : Char} : ∀ {l : List (Char × Char)},
    c ∈ l.map Prod.fst → ∃ v, trLookup c l = some v
  | [], h => by simp at h
  | q :: rest, h => by
    by_cases hq : q.1 = c
    · exact ⟨q.2, by rw [trLookup, if_pos hq]⟩
    · have : c ∈ rest.map Prod.fst := by
        rcases List.mem_cons.mp h with h1 | h1
        · exact absurd h1.symm hq
        · exact h1
      obtain ⟨v, hv⟩ := trLookup_exists this
      exact ⟨v, by rw [trLookup, if_neg hq]; exact hv⟩

set_option maxRecDepth 8000 in
theorem transPairs_fst : transPairs.map Prod.fst = tr_from := by decide

theorem trFun_eq_of_not_mem {c : Char} (h : c ∉ tr_from) : trFun c = c := by
  unfold trFun
  cases hl : trLookup c transPairs.reverse with
  | none => rfl
  | some v =>
    have hmem : (c, v) ∈ transPairs := List.mem_reverse.mp (trLookup_mem hl)
    have : c ∈ transPairs.map Prod.fst := List.mem_map_of_mem Prod.fst hmem
    rw [transPairs_fst] at this
    exact absurd this h

set_option maxRecDepth 8000 in
theorem transPairs_at_iff : ∀ q ∈ transPairs,
    (q.2 = '@' ↔ (q.1 ∈ regexSymbolChars ∨ q.1 = '\\')) := by decide

theorem regexSymbolChars_sub : ∀ c ∈ regexSymbolChars, c ∈ tr_from := by decide

/-- Claim C3, counterexample: the backslash character is mapped to the
symbol-class marker `@` by the Pattern Masker, yet the `[{SYMBOLS}]`
character class of the taxonomy rules does not match it (inside the regex
class every backslash of `SYMBOLS` escapes the following character). -/
theorem symbol_class_cex :
    translate ['\\'] = ['@'] ∧ '\\' ∉ regexSymbolChars := by decide

/-- Claim C3, amended: the character set matched by the taxonomy rules'
symbol class is exactly the set of characters the Pattern Masker maps to
`@` minus the backslash. -/
theorem symbol_class_amended (c : Char) :
    c ∈ regexSymbolChars ↔ (translate [c] = ['@'] ∧ c ≠ '\\') := by
  have htr : translate [c] = ['@'] ↔ trFun c = '@' := by simp [translate]
  rw [htr]
  constructor
  · intro h
    have hne : c ≠ '\\' := by
      intro he
      rw [he] at h
      exact absurd h (by decide)
    refine ⟨?_, hne⟩
    have hf : c ∈ transPairs.map Prod.fst := by
      rw [transPairs_fst]
      exact regexSymbolChars_sub c h
    have hf2 : c ∈ transPairs.reverse.map Prod.fst := by
      rw [List.map_reverse]
      exact List.mem_reverse.mpr hf
    obtain ⟨v, hv⟩ := trLookup_exists hf2
    have hmem : (c, v) ∈ transPairs := List.mem_reverse.mp (trLookup_mem hv)
    have hv2 : v = '@' := (transPairs_at_iff (c, v) hmem).mpr (Or.inl h)
    rw [trFun, hv, Option.getD_some]
    exact hv2
  · rintro ⟨h, hne⟩
    cases hl : trLookup c transPairs.reverse with
    | none =>
      rw [trFun, hl, Option.getD_none] at h
      rw [h]
      decide
    | some v =>
      rw [trFun, hl, Option.getD_some] at h
      have hmem : (c, v) ∈ transPairs := List.mem_reverse.mp (trLookup_mem hl)
      have := (transPairs_at_iff (c, v) hmem).mp h
      rcases this with h1 | h1
      · exact h1
      · exact absurd h1 hne

/-- Claim C3, witness: the space character is in both sets, and the
equivalence was applied at it. -/
theorem symbol_class_amended_witness :
    ' ' ∈ regexSymbolChars ∧ translate [' '] = ['@'] ∧ ' ' ≠ '\\' :=
  ⟨by decide, (symbol_class_amended ' ').mp (by decide)⟩

/-- Claim C7: the Pattern Masker preserves the length of the password, and
a character outside the lowercase/uppercase/digit/symbol classes (the
characters of `tr_from`) is left unchanged at its position. -/
theorem shape_mask_len_unmapped (p : List Char) :
    (translate p).length = p.length ∧
      ∀ i : Nat, i < p.length → p.getD i ' ' ∉ tr_from →
        (translate p).getD i ' ' = p.getD i ' ' := by
  refine ⟨by simp [translate], ?_⟩
  intro i hi hm
  have hi2 : i < (translate p).length := by simpa [translate] using hi
  rw [List.getD_eq_getElem p ' ' hi] at hm ⊢
  rw [List.getD_eq_getElem _ ' ' hi2]
  simp only [translate]
  rw [List.getElem_map]
  exact trFun_eq_of_not_mem hm

/-- Claim C7, witness: the non-ASCII letter with code 233 is outside all
four classes and passes through the Masker unchanged, in a password of
length 2 whose shape keeps length 2. -/
theorem shape_mask_len_unmapped_witness :
    (translate ['a', Char.ofNat 233]).length = 2 ∧
      (1 < ([ 'a', Char.ofNat 233] : List Char).length ∧ Char.ofNat 233 ∉ tr_from) ∧
      (translate ['a', Char.ofNat 233]).getD 1 ' ' = (['a', Char.ofNat 233] : List Char).getD 1 ' ' :=
  ⟨(shape_mask_len_unmapped ['a', Char.ofNat 233]).1, ⟨by decide, by decide⟩,
    (shape_mask_len_unmapped ['a', Char.ofNat 233]).2 1 (by decide) (by decide)⟩

/-! Helper lemmas about the Line Normalizer. -/

theorem afterFirstColon_of_not_mem : ∀ {l : List Char}, ':' ∉ l →
    afterFirstColon l = none
  | [], _ => rfl
  | c :: rest, h => by
    have hc : ¬(c = ':') := fun he => h (by rw [he]; exact List.mem_cons_self _ _)
    rw [afterFirstColon, if_neg hc]
    exact afterFirstColon_of_not_mem (fun hm => h (List.mem_cons_of_mem _ hm))

theorem afterFirstColon_append : ∀ {u : List Char} (w : List Char), ':' ∉ u →
    afterFirstColon (u ++ ':' :: w) = some w
  | [], w, _ => by rw [List.nil_append, afterFirstColon, if_pos rfl]
  | c :: rest, w, h => by
    have hc : ¬(c = ':') := fun he => h (by rw [he]; exact List.mem_cons_self _ _)
    rw [List.cons_append, afterFirstColon, if_neg hc]
    exact afterFirstColon_append w (fun hm => h (List.mem_cons_of_mem _ hm))

theorem dropColon_of_not_mem {l : List Char} (h : ':' ∉ l) : dropColon l = l := by
  rw [dropColon, afterFirstColon_of_not_mem h, Option.getD_none]

theorem dropColon_strip {u : List Char} (w : List Char) (h : ':' ∉ u) :
    dropColon (u ++ ':' :: w) = w := by
  rw [dropColon, afterFirstColon_append w h, Option.getD_some]

/-- Claim C5: the Line Normalizer strips at most two leading
colon-delimited prefixes, using the shortest prefixes from the left, and
preserves every further colon inside the password component: a colon-free
line is returned whole, `u:w` with colon-free `u`, `w` yields `w`, and
`u:v:w` with colon-free `u`, `v` yields `w` for an arbitrary tail `w`. -/
theorem normalize_at_most_two :
    (∀ l : List Char, ':' ∉ l → normalize l = l) ∧
      (∀ u w : List Char, ':' ∉ u → ':' ∉ w → normalize (u ++ ':' :: w) = w) ∧
      (∀ u v w : List Char, ':' ∉ u → ':' ∉ v →
        normalize (u ++ ':' :: (v ++ ':' :: w)) = w) := by
  refine ⟨?_, ?_, ?_⟩
  · intro l h
    rw [normalize, dropColon_of_not_mem h, dropColon_of_not_mem h]
  · intro u w hu hw
    rw [normalize, dropColon_strip w hu, dropColon_of_not_mem hw]
  · intro u v w hu hv
    rw [normalize, dropColon_strip (v ++ ':' :: w) hu, dropColon_strip w hv]

/-- Claim C5, witness: `user:hash:pass:word` normalizes to `pass:word`,
with the embedded colon of the password preserved. -/
theorem normalize_at_most_two_witness :
    (':' ∉ "user".toList ∧ ':' ∉ "hash".toList) ∧
      normalize ("user".toList ++ ':' :: ("hash".toList ++ ':' :: "pass:word".toList)) =
        "pass:word".toList :=
  ⟨⟨by decide, by decide⟩,
    normalize_at_most_two.2.2 "user".toList "hash".toList "pass:word".toList
      (by decide) (by decide)⟩

/-- Claim C8: the Encoding Recoverer decodes `$HEX[70617373776F7264]` to
exactly `password` (pairwise hex decoding, the digit `F` read
case-insensitively). -/
theorem hex_roundtrip :
    recoverHex ("$HEX[70617373776F7264]".toList) = some ("password".toList) := by
  decide

/-! Helper lemmas about `unhexlify`. -/

theorem unhex_odd : ∀ l : List Char, l.length % 2 = 1 → unhexlify l = none
  | [], h => by simp at h
  | [_], _ => rfl
  | c1 :: c2 :: rest, h => by
    have hr : rest.length % 2 = 1 := by
      have h2 : (c1 :: c2 :: rest).length = rest.length + 2 := by
        simp [List.length_cons]
      rw [h2] at h
      omega
    rw [unhexlify, unhex_odd rest hr]
    cases hexVal c1 <;> cases hexVal c2 <;> rfl

theorem unhex_bad : ∀ (l : List Char) (c : Char), c ∈ l → hexVal c = none →
    unhexlify l = none
  | [], c, h, _ => absurd h (List.not_mem_nil c)
  | [_], _, _, _ => rfl
  | c1 :: c2 :: rest, c, h, hv => by
    rcases List.mem_cons.mp h with h1 | h1
    · rw [unhexlify, ← h1, hv]
    · rcases List.mem_cons.mp h1 with h2 | h2
      · rw [unhexlify, ← h2, hv]
        cases hexVal c1 <;> rfl
      · rw [unhexlify, unhex_bad rest c h2 hv]
        cases hexVal c1 <;> cases hexVal c2 <;> rfl

/-- Claim C6: a `$HEX[...]` candidate whose bracketed payload has odd
length or contains a non-hex character makes the Encoding Recoverer fail
hard (`none`, the uncaught `binascii.Error`); the undecoded candidate is
never passed through. -/
theorem hex_error_hard (payload : List Char)
    (h : payload.length % 2 = 1 ∨ ∃ c ∈ payload, hexVal c = none) :
    recoverHex (hexCandidate payload) = none := by
  have hc : (hexCandidate payload).take 5 = hexHead := rfl
  have hl : (hexCandidate payload).getLast? = some ']' := by
    rw [hexCandidate]
    exact List.getLast?_concat _
  have hd : ((hexCandidate payload).drop 5).dropLast = payload := by
    have hdrop : (hexCandidate payload).drop 5 = payload ++ [']'] := rfl
    rw [hdrop, List.dropLast_concat]
  rw [recoverHex, if_pos ⟨hc, hl⟩, hd]
  rcases h with hodd | ⟨c, hcm, hv⟩
  · exact unhex_odd payload hodd
  · exact unhex_bad payload c hcm hv

/-- Claim C6, witness: the odd-length payload `abc` is rejected. -/
theorem hex_error_hard_witness :
    (['a', 'b', 'c'] : List Char).length % 2 = 1 ∧
      recoverHex (hexCandidate ['a', 'b', 'c']) = none :=
  ⟨by decide, hex_error_hard ['a', 'b', 'c'] (Or.inl (by decide))⟩

/-! Helper lemmas about the category set construction. -/

theorem mem_insertNew {c x : String} {l : List String} :
    c ∈ insertNew x l ↔ c ∈ l ∨ c = x := by
  rw [insertNew]
  by_cases hx : x ∈ l
  · rw [if_pos hx]
    constructor
    · exact Or.inl
    · rintro (h | h)
      · exact h
      · rw [h]; exact hx
  · rw [if_neg hx]
    simp

theorem mem_updateSet {c : String} : ∀ (xs : List String) (acc : List String),
    c ∈ updateSet acc xs ↔ c ∈ acc ∨ c ∈ xs
  | [], acc => by simp [updateSet]
  | x :: xs, acc => by
    have hstep : updateSet acc (x :: xs) = updateSet (insertNew x acc) xs := rfl
    rw [hstep, mem_updateSet xs (insertNew x acc), mem_insertNew]
    simp [List.mem_cons]
    tauto

theorem mem_fuzzyCatFold (w2c : String → List String) (c : String) :
    ∀ (mall : List (String × Nat)) (acc : List String),
      c ∈ mall.foldl (fun a m => if 80 < m.2 then updateSet a (w2c m.1) else a) acc ↔
        c ∈ acc ∨ ∃ w1 s, (w1, s) ∈ mall ∧ 80 < s ∧ c ∈ w2c w1
  | [], acc => by simp
  | m :: rest, acc => by
    rw [List.foldl_cons, mem_fuzzyCatFold w2c c rest]
    by_cases hm : 80 < m.2
    · rw [if_pos hm, mem_updateSet]
      constructor
      · rintro ((h | h) | ⟨w1, s, hmem, hs, hc⟩)
        · exact Or.inl h
        · exact Or.inr ⟨m.1, m.2, List.mem_cons_self _ _, hm, h⟩
        · exact Or.inr ⟨w1, s, List.mem_cons_of_mem _ hmem, hs, hc⟩
      · rintro (h | ⟨w1, s, hmem, hs, hc⟩)
        · exact Or.inl (Or.inl h)
        · rcases List.mem_cons.mp hmem with heq | hmem2
          · refine Or.inl (Or.inr ?_)
            have : w1 = m.1 := by rw [← heq]
            rwa [this] at hc
          · exact Or.inr ⟨w1, s, hmem2, hs, hc⟩
    · rw [if_neg hm]
      constructor
      · rintro (h | ⟨w1, s, hmem, hs, hc⟩)
        · exact Or.inl h
        · exact Or.inr ⟨w1, s, List.mem_cons_of_mem _ hmem, hs, hc⟩
      · rintro (h | ⟨w1, s, hmem, hs, hc⟩)
        · exact Or.inl h
        · rcases List.mem_cons.mp hmem with heq | hmem2
          · exfalso
            have hs2 : s = m.2 := by rw [← heq]
            rw [hs2] at hs
            exact hm hs
          · exact Or.inr ⟨w1, s, hmem2, hs, hc⟩

/-- Claim C4: a fuzzy match contributes to the base-word counter and to the
password's category label set exactly when its score is strictly greater
than 80 — the boundary at exactly 80 is exclusive. -/
theorem fuzzy_threshold_exclusive (w2c : String → List String)
    (mall : List (String × Nat)) (w c : String) :
    (w ∈ fuzzyRoots mall ↔ ∃ s, (w, s) ∈ mall ∧ 80 < s) ∧
      (c ∈ fuzzyCategories w2c mall ↔ ∃ w1 s, (w1, s) ∈ mall ∧ 80 < s ∧ c ∈ w2c w1) := by
  constructor
  · rw [fuzzyRoots, List.mem_filterMap]
    constructor
    · rintro ⟨⟨w1, s⟩, hmem, hif⟩
      by_cases hs : 80 < s
      · refine ⟨s, ?_, hs⟩
        have hw : w1 = w := by
          rw [if_pos hs] at hif
          exact Option.some.inj hif
        rwa [hw] at hmem
      · rw [if_neg hs] at hif
        cases hif
    · rintro ⟨s, hmem, hs⟩
      exact ⟨(w, s), hmem, by rw [if_pos hs]⟩
  · rw [fuzzyCategories, mem_fuzzyCatFold]
    simp

/-- Claim C4, witness: with matches of score 80 and 81 for distinct words,
only the word with score 81 and its category survive. -/
theorem fuzzy_threshold_exclusive_witness :
    (¬ ("mass" ∈ fuzzyRoots [("mass", 80), ("lass", 81)]) ∧
        "lass" ∈ fuzzyRoots [("mass", 80), ("lass", 81)]) ∧
      (¬ ("cm" ∈ fuzzyCategories
            (fun w => if w = "mass" then ["cm"] else ["cl"])
            [("mass", 80), ("lass", 81)]) ∧
        "cl" ∈ fuzzyCategories
            (fun w => if w = "mass" then ["cm"] else ["cl"])
            [("mass", 80), ("lass", 81)]) := by
  constructor
  · constructor
    · intro h
      have h2 := ((fuzzy_threshold_exclusive (fun _ => []) [("mass", 80), ("lass", 81)]
        "mass" "cm").1).mp h
      rcases h2 with ⟨s, hmem, hs⟩
      rcases List.mem_cons.mp hmem with h3 | h3
      · have : s = 80 := congrArg Prod.snd h3
        omega
      · rcases List.mem_cons.mp h3 with h4 | h4
        · have : ("mass" : String) = "lass" := congrArg Prod.fst h4
          simp at this
        · exact absurd h4 (List.not_mem_nil _)
    · exact ((fuzzy_threshold_exclusive (fun _ => []) [("mass", 80), ("lass", 81)]
        "lass" "cl").1).mpr ⟨81, by simp, by omega⟩
  · constructor
    · intro h
      have h2 := ((fuzzy_threshold_exclusive
        (fun w => if w = "mass" then ["cm"] else ["cl"]) [("mass", 80), ("lass", 81)]
        "mass" "cm").2).mp h
      rcases h2 with ⟨w1, s, hmem, hs, hc⟩
      rcases List.mem_cons.mp hmem with h3 | h3
      · have hs2 : s = 80 := congrArg Prod.snd h3
        omega
      · rcases List.mem_cons.mp h3 with h4 | h4
        · have hw : w1 = "lass" := congrArg Prod.fst h4
          rw [hw] at hc
          simp at hc
        · exact absurd h4 (List.not_mem_nil _)
    · exact ((fuzzy_threshold_exclusive
        (fun w => if w = "mass" then ["cm"] else ["cl"]) [("mass", 80), ("lass", 81)]
        "lass" "cl").2).mpr ⟨"lass", 81, by simp, by omega, by simp⟩

/-! Helper lemmas about the Aggregator state. -/

theorem freqStep_cnt (pr : Params) (st : St) (c : Char) :
    (freqStep pr st c).cnt = st.cnt := by
  unfold freqStep
  split
  · rfl
  split
  · rfl
  · rfl

theorem freqStep_chars (pr : Params) (st : St) (c : Char) :
    (freqStep pr st c).totals_chars = st.totals_chars := by
  unfold freqStep
  split
  · rfl
  split
  · rfl
  · rfl

theorem freqStep_sum (pr : Params) (st : St) (c : Char) :
    (freqStep pr st c).totals_num + (freqStep pr st c).totals_alpha +
      (freqStep pr st c).totals_symbol =
      st.totals_num + st.totals_alpha + st.totals_symbol + 1 := by
  unfold freqStep
  split
  · dsimp only
    omega
  split
  · dsimp only
    omega
  · dsimp only
    omega

theorem freqScan_cnt (pr : Params) : ∀ (p : List Char) (st : St),
    (freqScan pr st p).cnt = st.cnt
  | [], _ => rfl
  | c :: p, st => by
    have h : freqScan pr st (c :: p) = freqScan pr (freqStep pr st c) p := rfl
    rw [h, freqScan_cnt pr p, freqStep_cnt]

theorem freqScan_chars (pr : Params) : ∀ (p : List Char) (st : St),
    (freqScan pr st p).totals_chars = st.totals_chars
  | [], _ => rfl
  | c :: p, st => by
    have h : freqScan pr st (c :: p) = freqScan pr (freqStep pr st c) p := rfl
    rw [h, freqScan_chars pr p, freqStep_chars]

theorem freqScan_sum (pr : Params) : ∀ (p : List Char) (st : St),
    (freqScan pr st p).totals_num + (freqScan pr st p).totals_alpha +
      (freqScan pr st p).totals_symbol =
      st.totals_num + st.totals_alpha + st.totals_symbol + p.length
  | [], st => by simp [freqScan]
  | c :: p, st => by
    have h : freqScan pr st (c :: p) = freqScan pr (freqStep pr st c) p := rfl
    rw [h, freqScan_sum pr p, freqStep_sum, List.length_cons]
    omega

theorem classify_cnt (pr : Params) (st : St) (p : List Char) :
    (classify pr st p).cnt = st.cnt ++
      (if fuzzyEnabled pr p then pwCategoriesOf pr.word2category (pr.extract p)
       else []) := by
  unfold classify
  cases hf : pr.freq
  · simp [hf]
  · simp [hf, freqScan_cnt]

theorem classify_chars (pr : Params) (st : St) (p : List Char) :
    (classify pr st p).totals_chars =
      if pr.freq then st.totals_chars + p.length else st.totals_chars := by
  unfold classify
  cases hf : pr.freq
  · simp [hf]
  · simp [hf, freqScan_chars]

theorem classify_sum (pr : Params) (st : St) (p : List Char) :
    (classify pr st p).totals_num + (classify pr st p).totals_alpha +
      (classify pr st p).totals_symbol =
      if pr.freq then
        st.totals_num + st.totals_alpha + st.totals_symbol + p.length
      else st.totals_num + st.totals_alpha + st.totals_symbol := by
  unfold classify
  cases hf : pr.freq
  · simp [hf]
  · simp only [hf, if_pos]
    have h := freqScan_sum pr p { st with totals_chars := st.totals_chars + p.length }
    simpa using h

theorem processLine_totals (pr : Params) (st st1 : St) (l : List Char)
    (hok : totalsOk st) (h : processLine pr st l = some st1) : totalsOk st1 := by
  unfold processLine at h
  cases hemp : (normalize l).isEmpty
  · cases hrec : recoverHex (normalize l) with
    | none => simp [hemp, hrec] at h
    | some q =>
      simp only [hemp, Bool.false_eq_true, if_false, hrec] at h
      cases h
      unfold totalsOk at hok ⊢
      rw [classify_chars, classify_sum]
      have e1 : ({ st with valid := st.valid + 1 } : St).totals_chars = st.totals_chars := rfl
      have e2 : ({ st with valid := st.valid + 1 } : St).totals_num = st.totals_num := rfl
      have e3 : ({ st with valid := st.valid + 1 } : St).totals_alpha = st.totals_alpha := rfl
      have e4 : ({ st with valid := st.valid + 1 } : St).totals_symbol = st.totals_symbol := rfl
      by_cases hf : pr.freq = true
      · rw [if_pos hf, if_pos hf, e1, e2, e3, e4]
        omega
      · rw [if_neg hf, if_neg hf, e1, e2, e3, e4]
        omega
  · simp only [hemp, if_true] at h
    cases h
    exact hok

theorem processLines_totals (pr : Params) : ∀ (lines : List (List Char)) (st st1 : St),
    totalsOk st → processLines pr st lines = some st1 → totalsOk st1
  | [], st, st1, hok, h => by
    rw [processLines] at h
    cases h
    exact hok
  | l :: ls, st, st1, hok, h => by
    rw [processLines] at h
    cases hpl : processLine pr st l with
    | none =>
      rw [hpl] at h
      simp at h
    | some st2 =>
      rw [hpl] at h
      exact processLines_totals pr ls st2 st1 (processLine_totals pr st st2 l hok hpl) h

/-- Claim C10: with letter-frequency mode enabled, every character of every
processed password is counted in exactly one of the numeric, alphabetic or
symbol counters, so at the end of any completed run the `chars` total
equals the sum of the `num`, `alpha` and `symbol` totals. -/
theorem freq_totals (pr : Params) (lines : List (List Char)) (st : St)
    (_hf : pr.freq = true) (h : processLines pr St.init lines = some st) :
    st.totals_chars = st.totals_num + st.totals_alpha + st.totals_symbol :=
  processLines_totals pr lines St.init st rfl h

/-- Claim C10, witness: the run over the single line `a1%` in frequency
mode ends with 3 characters split 1/1/1 over the three class totals. -/
theorem freq_totals_witness :
    fqParams.freq = true ∧
      processLines fqParams St.init [['a', '1', '%']] = some fqRun ∧
      fqRun.totals_chars = fqRun.totals_num + fqRun.totals_alpha + fqRun.totals_symbol ∧
      fqRun.totals_chars = 3 :=
  ⟨rfl, by decide, freq_totals fqParams [['a', '1', '%']] fqRun rfl (by decide),
    by decide⟩

/-- Claim C9: a line whose normalized password is empty leaves the whole
Aggregator state unchanged — no counter and no total is modified and the
valid-password count does not move — while the lines-read count of the
source grows by one. -/
theorem empty_line_skipped (pr : Params) (st : St) (l : List Char)
    (ls : List (List Char)) (h : normalize l = []) :
    processLine pr st l = some st ∧
      runFile pr st (l :: ls) = (runFile pr st ls).map (fun r => (r.1 + 1, r.2)) := by
  have h1 : processLine pr st l = some st := by
    unfold processLine
    rw [h]
    rfl
  refine ⟨h1, ?_⟩
  have h2 : processLines pr st (l :: ls) = processLines pr st ls := by
    rw [processLines, h1]
  unfold runFile
  rw [h2]
  cases processLines pr st ls
  · rfl
  · rfl

/-- Claim C9, witness: the line `:` normalizes to the empty password and is
skipped with the state untouched. -/
theorem empty_line_skipped_witness :
    normalize [':'] = [] ∧ processLine ncParams St.init [':'] = some St.init :=
  ⟨by decide, (empty_line_skipped ncParams St.init [':'] [] (by decide)).1⟩

theorem pwCategoriesOf_ne_nil (w2c : String → List String)
    (mall : List (String × Nat)) : pwCategoriesOf w2c mall ≠ [] := by
  unfold pwCategoriesOf
  dsimp only
  split
  · simp
  · assumption

theorem processLines_cnt (pr : Params) : ∀ (lines : List (List Char)) (st st1 : St),
    processLines pr st lines = some st1 →
    ∃ ps, decodedPasswords lines = some ps ∧
      st1.cnt.length = st.cnt.length + (ps.map (catContribution pr)).sum
  | [], st, st1, h => by
    rw [processLines] at h
    cases h
    exact ⟨[], rfl, by simp⟩
  | l :: ls, st, st1, h => by
    rw [processLines] at h
    unfold processLine at h
    cases hemp : (normalize l).isEmpty
    · cases hrec : recoverHex (normalize l) with
      | none => simp [hemp, hrec] at h
      | some q =>
        simp only [hemp, Bool.false_eq_true, if_false, hrec] at h
        obtain ⟨ps1, hd1, hl1⟩ :=
          processLines_cnt pr ls (classify pr { st with valid := st.valid + 1 } q) st1 h
        refine ⟨q :: ps1, ?_, ?_⟩
        · rw [decodedPasswords]
          simp only [hemp, Bool.false_eq_true, if_false, hrec, hd1]
          rfl
        · have hc : (classify pr { st with valid := st.valid + 1 } q).cnt.length =
              st.cnt.length + catContribution pr q := by
            rw [classify_cnt, List.length_append]
            have e : ({ st with valid := st.valid + 1 } : St).cnt = st.cnt := rfl
            rw [e]
            unfold catContribution
            cases hfz : fuzzyEnabled pr q <;> simp [hfz]
          rw [hl1, hc, List.map_cons, List.sum_cons]
          omega
    · simp only [hemp, if_true] at h
      obtain ⟨ps1, hd1, hl1⟩ := processLines_cnt pr ls st st1 h
      refine ⟨ps1, ?_, hl1⟩
      rw [decodedPasswords]
      simp only [hemp, if_true, hd1]

/-- Claim C1, counterexample: a completed run over the single valid
password `abc` (length 3, not exceeding the fuzzy-matching minimum) ends
with 1 valid password but a category-counter sum of 0 — short valid
passwords contribute to no category counter, so the claimed equality
fails. -/
theorem category_sum_cex :
    processLines exParams St.init [['a', 'b', 'c']] = some exShortRun ∧
      exShortRun.valid = 1 ∧ exShortRun.cnt.length = 0 ∧
      exShortRun.cnt.length ≠ exShortRun.valid := by decide

/-- Claim C1, amended: for every completed run, the sum of the counts over
all category counters equals the sum, over the decoded passwords that
reach classification, of the size of the category label set the fuzzy
resolver assigns — which is zero for a password not entering fuzzy
resolution (length at most 3, categories disabled, or an empty word set)
and at least one (counting the `no_category` sentinel) for every password
that does. -/
theorem category_sum (pr : Params) (lines : List (List Char)) (st : St)
    (ps : List (List Char)) (h1 : processLines pr St.init lines = some st)
    (h2 : decodedPasswords lines = some ps) :
    st.cnt.length = (ps.map (catContribution pr)).sum ∧
      ∀ q : List Char, fuzzyEnabled pr q = true → 0 < catContribution pr q := by
  constructor
  · obtain ⟨ps1, hd, hlen⟩ := processLines_cnt pr lines St.init st h1
    rw [h2] at hd
    have he : ps = ps1 := Option.some.inj hd
    rw [he]
    simpa [St.init] using hlen
  · intro q hq
    unfold catContribution
    rw [if_pos hq]
    exact List.length_pos.mpr (pwCategoriesOf_ne_nil _ _)

/-- Claim C1, witness: a run over the single line `passw` whose fuzzy
scorer reports `pass` at score 90 ends with a category-counter sum equal
to the one-element contribution list, and the fuzzy guard yields a
positive contribution. -/
theorem category_sum_witness :
    processLines wParams St.init [wLine] = some wRun ∧
      decodedPasswords [wLine] = some wPs ∧
      wRun.cnt.length = (wPs.map (catContribution wParams)).sum ∧
      0 < catContribution wParams wLine := by
  refine ⟨by decide, by decide, ?_, ?_⟩
  · exact (category_sum wParams [wLine] wRun wPs (by decide) (by decide)).1
  · exact (category_sum wParams [wLine] wRun wPs (by decide) (by decide)).2
      wLine (by decide)

/-- Claim C2, counterexample: the line `$HEX[]` normalizes to the non-empty
candidate `$HEX[]`, which decodes to the empty string, and that empty
password reaches classification: the run counts it valid, counts length 0
and counts the empty value. -/
theorem empty_reached_cex :
    decodedPasswords [hexEmptyLine] = some [[]] ∧
      processLines ncParams St.init [hexEmptyLine] = some hexEmptyRun ∧
      hexEmptyRun.cnt_length = [0] ∧ hexEmptyRun.cnt_pwd = [[]] ∧
      hexEmptyRun.valid = 1 := by decide

/-- Claim C2, amended: candidates that are empty after normalization are
dropped before classification, but the emptiness check precedes hex-escape
recovery; hence in a run none of whose normalized candidates carries the
`$HEX[` wrapper head, every password reaching classification is non-empty,
and an empty-normalizing line contributes no password at all. -/
theorem empty_dropped_before_hex :
    (∀ (lines ps : List (List Char)), decodedPasswords lines = some ps →
      (∀ l ∈ lines, (normalize l).take 5 ≠ hexHead) → ∀ q ∈ ps, q ≠ []) ∧
      (∀ (l : List Char) (ls : List (List Char)), normalize l = [] →
        decodedPasswords (l :: ls) = decodedPasswords ls) := by
  constructor
  · intro lines
    induction lines with
    | nil =>
      intro ps hd _ q hq
      rw [decodedPasswords] at hd
      cases hd
      simp at hq
    | cons l ls ih =>
      intro ps hd hhex q hq
      rw [decodedPasswords] at hd
      cases hemp : (normalize l).isEmpty
      · cases hrec : recoverHex (normalize l) with
        | none => simp [hemp, hrec] at hd
        | some q0 =>
          simp only [hemp, Bool.false_eq_true, if_false, hrec] at hd
          cases hd2 : decodedPasswords ls with
          | none =>
            rw [hd2] at hd
            simp at hd
          | some ps1 =>
            rw [hd2] at hd
            have he : q0 :: ps1 = ps := Option.some.inj hd
            rw [← he] at hq
            rcases List.mem_cons.mp hq with hq1 | hq1
            · have hnx : (normalize l).take 5 ≠ hexHead :=
                hhex l (List.mem_cons_self _ _)
              have hpass : recoverHex (normalize l) = some (normalize l) := by
                rw [recoverHex, if_neg]
                intro hcon
                exact hnx hcon.1
              rw [hpass] at hrec
              have hq0 : q0 = normalize l := (Option.some.inj hrec).symm
              rw [hq1, hq0]
              intro hq2
              rw [hq2] at hemp
              simp at hemp
            · exact ih ps1 hd2 (fun l2 hl2 => hhex l2 (List.mem_cons_of_mem _ hl2)) q hq1
      · simp only [hemp, if_true] at hd
        exact ih ps hd (fun l2 hl2 => hhex l2 (List.mem_cons_of_mem _ hl2)) q hq
  · intro l ls h
    rw [decodedPasswords]
    simp only [h, List.isEmpty_nil, if_true]

/-- Claim C2, witness: in the hex-free run over the line `x:y`, the single
classified password `y` is non-empty, and the empty-normalizing line `:`
contributes no password. -/
theorem empty_dropped_before_hex_witness :
    decodedPasswords [['x', ':', 'y']] = some [['y']] ∧ (['y'] : List Char) ≠ [] ∧
      decodedPasswords ([':'] :: []) = decodedPasswords [] :=
  ⟨by decide,
    empty_dropped_before_hex.1 [['x', ':', 'y']] [['y']] (by decide) (by decide)
      ['y'] (by decide),
    empty_dropped_before_hex.2 [':'] [] (by decide)⟩

end Passat
